import Mathlib

/-!
Shallow embedding of the larva build tool (larva.go) and verification of its
specification claims.

Go strings are modelled as lists of characters (`Str`).  The process
environment (filesystem stats, file contents, glob expansion, subprocess exit
codes, selected path operations from Go's standard library) is modelled as an
`Env` record of oracles, and the program's package-level globals (detected
platform, build mode, resolved directories, loaded configuration) as a `Gs`
record.  External commands issued via `exec.Command` are collected in traces of
`Cmd` values; `os.Exit(1)` and a Go panic are modelled as the error outcomes of
an `Except`.
-/

set_option maxRecDepth 4000

namespace Larva

/-- Go strings, modelled as lists of characters. -/
abbrev Str := List Char

/-- The opening brace character, written by code point to keep brace characters
out of the surrounding text. -/
def lbrace : Char := Char.ofNat 123

/-- The closing brace character. -/
def rbrace : Char := Char.ofNat 125

/-- Whitespace as recognized by `strings.Fields` (Go's `unicode.IsSpace`),
restricted to the Latin-1 white space characters. -/
def isSpaceGo (c : Char) : Bool :=
  c = ' ' || c = '\t' || c = '\n' || c = Char.ofNat 11 || c = Char.ofNat 12 ||
  c = '\r' || c = Char.ofNat 133 || c = Char.ofNat 160

/-- Fuel-driven worker for `replaceAll`.  One unit of fuel is spent per step;
each step consumes at least one character of the input, so fuel equal to the
input length suffices. -/
def replaceAllF (pat rep : Str) : Nat → Str → Str
  | 0, s => s
  | fuel + 1, s =>
    match s with
    | [] => []
    | c :: s' =>
      if pat.isPrefixOf (c :: s') ∧ pat ≠ [] then
        rep ++ replaceAllF pat rep fuel ((c :: s').drop pat.length)
      else c :: replaceAllF pat rep fuel s'

/-- Go's `strings.ReplaceAll(s, pat, rep)` for a non-empty pattern:
left-to-right, non-overlapping replacement; replaced text is skipped, never
re-scanned by the same call.  (The code only ever calls it with non-empty
literal patterns.) -/
def replaceAll (pat rep s : Str) : Str := replaceAllF pat rep s.length s

/-- Worker for `fields`: `acc` holds the current word, reversed. -/
def fieldsAux : Str → Str → List Str
  | [], acc => if acc.isEmpty then [] else [acc.reverse]
  | c :: s, acc =>
    if isSpaceGo c then
      if acc.isEmpty then fieldsAux s [] else acc.reverse :: fieldsAux s []
    else fieldsAux s (c :: acc)

/-- Go's `strings.Fields`: the maximal runs of non-whitespace characters, in
order. -/
def fields (s : Str) : List Str := fieldsAux s []

/-- Go's `strings.TrimSuffix`. -/
def trimSuffix (s suffix : Str) : Str :=
  if suffix.isSuffixOf s then s.take (s.length - suffix.length) else s

/-- The remainder of `s` after its first colon, if `s` contains one.  Models
`strings.Index(content, ":")` followed by `content[idx+1:]`. -/
def afterColon : Str → Option Str
  | [] => none
  | c :: s => if c = ':' then some s else afterColon s

/-- The `if idx := strings.Index(content, ":"); idx >= 0` step of `parseDeps`:
drop everything up to and including the first colon; a colon-free string is
kept whole. -/
def stripTargetPart (s : Str) : Str := (afterColon s).getD s

/-- The two `strings.ReplaceAll` passes of `parseDeps`: first
backslash-newline, then backslash-CR-LF, each collapsed to a single space. -/
def collapseContinuations (s : Str) : Str :=
  replaceAll ['\\', '\r', '\n'] [' '] (replaceAll ['\\', '\n'] [' '] s)

/-- The process environment: oracles for every effect the build engine reads
from the outside world.  `stat` returns a file's modification time (`none`
models a failing `os.Stat`), `read` a file's contents (`none` models a failing
`os.ReadFile`), `glob` the matches of `filepath.Glob`, `exit` the observed exit
status of launching a process (`0` = success, anything else models a non-zero
exit or a failure to launch), `join`, `base` and `abs` the corresponding
`path/filepath` functions, and `cwd` the forward-slash form of `os.Getwd`. -/
structure Env where
  cwd : Str
  glob : Str → List Str
  stat : Str → Option Nat
  read : Str → Option Str
  exit : Str → List Str → Nat
  join : Str → Str → Str
  base : Str → Str
  abs : Str → Str

/-- Go `parseDeps`: read the dependency file (absent file yields the empty
list), collapse line continuations, discard through the first colon, and
tokenize on whitespace. -/
def parseDeps (env : Env) (depFile : Str) : List Str :=
  match env.read depFile with
  | none => []
  | some data => fields (stripTargetPart (collapseContinuations data))

/-- Go `needsRecompile`: the staleness oracle for one compilation unit. -/
def needsRecompile (env : Env) (src obj dep : Str) : Bool :=
  match env.stat obj with
  | none => true
  | some objTime =>
    match env.stat src with
    | none => true
    | some srcTime =>
      if objTime < srcTime then true
      else
        (parseDeps env dep).any fun h =>
          match env.stat h with
          | some hTime => decide (objTime < hTime)
          | none => false

/-- Go `isNewer`: the two-argument staleness check used for asset copies. -/
def isNewer (env : Env) (src dst : Str) : Bool :=
  match env.stat src with
  | none => true
  | some srcTime =>
    match env.stat dst with
    | none => true
    | some dstTime => decide (dstTime < srcTime)

/-- Go `Platform`: per-platform overlay of a target. -/
structure Platform where
  includes : List Str
  libDirs : List Str
  links : List Str
  output : Str
deriving DecidableEq

/-- Go `BuildMode`: the flag list of one build mode. -/
structure BuildMode where
  flags : List Str
deriving DecidableEq

/-- Go `Target`.  The `platform` map is an association list keyed by platform
identifier (TOML table keys are unique). -/
structure Target where
  kind : Str
  language : Str
  sources : List Str
  includes : List Str
  deps : List Str
  platform : List (Str × Platform)
  debug : BuildMode
  release : BuildMode
deriving DecidableEq

/-- Go `PostBuild`: one post-build step. -/
structure PostBuild where
  target : Str
  copy : List Str
  runLinux : Str
  runWindows : Str
deriving DecidableEq

/-- Go `Command`: one custom command. -/
structure Command where
  description : Str
  steps : List Str
  remove : List Str
deriving DecidableEq

/-- The package-level globals of larva.go after config load and platform
detection: `isWindows` models `runtime.GOOS == "windows"` (which also
determines `plat`), `mode` the active build mode, `buildDir`/`cacheDir` the
resolved output and cache directories, and the remaining fields the loaded
configuration (`cfg.Project.Name`, `cfg.Project.Compiler`,
`cfg.Project.Vars` with its map iteration order made explicit as a list,
`cfg.Targets` as an association list in iteration order, `cfg.PostBuild`). -/
structure Gs where
  isWindows : Bool
  mode : Str
  buildDir : Str
  cacheDir : Str
  projectName : Str
  compilerSel : Str
  vars : List (Str × Str)
  targets : List (Str × Target)
  postBuild : List PostBuild

/-- The platform key used to index `Target.Platform`. -/
def platKey (g : Gs) : Str := if g.isWindows then "windows".toList else "linux".toList

/-- Go `exeName`: append `.exe` on Windows. -/
def exeName (g : Gs) (name : Str) : Str :=
  if g.isWindows then name ++ ".exe".toList else name

/-- Name of the project-root placeholder. -/
def nmProjectRoot : Str := "projectRoot".toList

/-- Name of the output-directory placeholder. -/
def nmOutput : Str := "output".toList

/-- Name of the executable-name placeholder. -/
def nmExe : Str := "exe".toList

/-- A placeholder token: the name wrapped in braces, as built by
`"{" + k + "}"` in `expandVars`. -/
def varToken (name : Str) : Str := lbrace :: (name ++ [rbrace])

/-- Go `expandVars`: four sequential single-pass replacements — project root,
output directory, executable name, then every user-defined variable in map
iteration order (`g.vars`). -/
def expandVars (env : Env) (g : Gs) (s : Str) : Str :=
  let s1 := replaceAll (varToken nmProjectRoot) env.cwd s
  let s2 := replaceAll (varToken nmOutput) g.buildDir s1
  let s3 := replaceAll (varToken nmExe) (exeName g g.projectName) s2
  g.vars.foldl (fun acc kv => replaceAll (varToken kv.1) kv.2 acc) s3

/-- A string containing no brace characters. -/
def bracesFree (s : Str) : Prop := lbrace ∉ s ∧ rbrace ∉ s

instance (s : Str) : Decidable (bracesFree s) := by
  unfold bracesFree
  infer_instance

/-- An environment with an empty filesystem, used for concrete evaluations. -/
def emptyEnv : Env where
  cwd := "/r".toList
  glob := fun _ => []
  stat := fun _ => none
  read := fun _ => none
  exit := fun _ _ => 0
  join := fun a b => a ++ '/' :: b
  base := fun s => s
  abs := fun s => s

/-- Globals for the C4 counterexample: the configured output directory is the
literal text of the exe token (a value the user is free to put in
`Platform.Output`). -/
def gC4 : Gs where
  isWindows := false
  mode := "debug".toList
  buildDir := varToken nmExe
  cacheDir := []
  projectName := "game".toList
  compilerSel := []
  vars := []
  targets := []
  postBuild := []

/-- Globals for the C5 counterexample, first map iteration order. -/
def gC5a : Gs where
  isWindows := false
  mode := "debug".toList
  buildDir := []
  cacheDir := []
  projectName := []
  compilerSel := []
  vars := [("a".toList, varToken "b".toList), ("b".toList, "X".toList)]
  targets := []
  postBuild := []

/-- Globals for the C5 counterexample, the other iteration order of the same
variable map. -/
def gC5b : Gs where
  isWindows := false
  mode := "debug".toList
  buildDir := []
  cacheDir := []
  projectName := []
  compilerSel := []
  vars := [("b".toList, "X".toList), ("a".toList, varToken "b".toList)]
  targets := []
  postBuild := []

/-- One external process invocation (`exec.Command(name, args...)`). -/
structure Cmd where
  name : Str
  args : List Str
deriving DecidableEq

/-- Abnormal termination of the tool: `exit c` models `os.Exit` with status
`c`, `panic` models a Go runtime panic (e.g. index out of range). -/
inductive BErr where
  | exit : Nat → BErr
  | panic : BErr
deriving DecidableEq

instance {α : Type} [DecidableEq α] : DecidableEq (Except BErr α) := fun a b =>
  match a, b with
  | .error e₁, .error e₂ =>
    if h : e₁ = e₂ then .isTrue (congrArg Except.error h)
    else .isFalse (fun he => h (Except.error.inj he))
  | .error _, .ok _ => .isFalse (fun he => Except.noConfusion he)
  | .ok _, .error _ => .isFalse (fun he => Except.noConfusion he)
  | .ok x, .ok y =>
    if h : x = y then .isTrue (congrArg Except.ok h)
    else .isFalse (fun he => h (Except.ok.inj he))

/-- The observable outcome of a build routine: the external commands launched
(in order), the file copies performed, and whether the process survived. -/
structure Tr (α : Type) where
  cmds : List Cmd
  copies : List (Str × Str)
  res : Except BErr α
deriving DecidableEq

/-- Go `run`, the Command Runner: echo and launch the command; any non-zero
exit or launch failure calls `os.Exit(1)`. -/
def run (env : Env) (name : Str) (args : List Str) : Tr Unit where
  cmds := [⟨name, args⟩]
  copies := []
  res := if env.exit name args = 0 then .ok () else .error (.exit 1)

/-- Go `resolveCompiler`: driver and language-standard flag from the project's
compiler family and the target's language tag. -/
def resolveCompiler (g : Gs) (lang : Str) : Str × Str :=
  let isCpp := ("c++".toList).isPrefixOf lang
  if g.compilerSel = "clang".toList then
    if isCpp then ("clang++".toList, "-std=".toList ++ lang)
    else ("clang".toList, "-std=".toList ++ lang)
  else
    if isCpp then ("g++".toList, "-std=".toList ++ lang)
    else ("gcc".toList, "-std=".toList ++ lang)

/-- Go `sourceExt`. -/
def sourceExt (lang : Str) : Str :=
  if ("c++".toList).isPrefixOf lang then ".cpp".toList else ".c".toList

/-- The flag list selected by the active build mode. -/
def activeFlags (g : Gs) (t : Target) : List Str :=
  if g.mode = "release".toList then t.release.flags else t.debug.flags

/-- Writing back the active mode's flag slice: `flags[i] = expandVars(f)` in
`buildTarget` writes through the slice header copied from the target, so the
(aliased) flag array of the loaded configuration now holds the new values. -/
def setActiveFlags (g : Gs) (t : Target) (fl : List Str) : Target :=
  if g.mode = "release".toList then { t with release := ⟨fl⟩ }
  else { t with debug := ⟨fl⟩ }

/-- Object file path for a source: `filepath.Join(cacheDir,
TrimSuffix(Base(src), ext) + ".o")`. -/
def objPath (env : Env) (g : Gs) (ext src : Str) : Str :=
  env.join g.cacheDir (trimSuffix (env.base src) ext ++ ".o".toList)

/-- Dependency file path for an object: `TrimSuffix(obj, ".o") + ".d"`. -/
def depPath (obj : Str) : Str := trimSuffix obj ".o".toList ++ ".d".toList

/-- The compiler argument list assembled in `buildTarget`, in source order:
compile-only flag, standard flag, warning suppression, dependency-generation
flags naming the dependency file, the expanded mode flags, one `-I`/directory
pair per include, then source, `-o`, object. -/
def compileArgs (stdFlag : Str) (flags includes : List Str) (src obj dep : Str) : List Str :=
  ["-c".toList, stdFlag, "-w".toList, "-MMD".toList, "-MF".toList, dep] ++ flags ++
    (includes.map (fun inc => ["-I".toList, inc])).flatten ++ [src, "-o".toList, obj]

/-- The per-source compile loop of `buildTarget`: consult the staleness
oracle, invoke the compiler on stale sources (a failing invocation exits the
process), and collect the object paths of all sources in order. -/
def compileLoop (env : Env) (g : Gs) (compiler stdFlag ext : Str)
    (flags includes : List Str) : List Str → List Cmd × Except BErr (List Str)
  | [] => ([], .ok [])
  | src :: rest =>
    let obj := objPath env g ext src
    let dep := depPath obj
    if needsRecompile env src obj dep then
      let args := compileArgs stdFlag flags includes src obj dep
      if env.exit compiler args = 0 then
        let r := compileLoop env g compiler stdFlag ext flags includes rest
        (⟨compiler, args⟩ :: r.1, r.2.map (fun objs => obj :: objs))
      else ([⟨compiler, args⟩], .error (.exit 1))
    else
      let r := compileLoop env g compiler stdFlag ext flags includes rest
      (r.1, r.2.map (fun objs => obj :: objs))

/-- The outcome of `buildTarget`: issued commands, resulting object list (or
the aborting error), and the target as left in the loaded configuration after
the in-place flag expansion (Go slice aliasing; the target-name parameter of
the Go function is used only in its warning message and is omitted here). -/
structure BTOut where
  cmds : List Cmd
  res : Except BErr (List Str)
  tAfter : Target
deriving DecidableEq

/-- Go `buildTarget`: glob the sources (empty resolution warns and returns no
artifacts, before the flag loop runs), merge target includes with the current
platform overlay's, expand the active mode's flags in place, and compile each
stale source. -/
def buildTarget (env : Env) (g : Gs) (t : Target) : BTOut :=
  let sources := (t.sources.map env.glob).flatten
  if sources = [] then ⟨[], .ok [], t⟩
  else
    let includes := t.includes ++
      (match List.lookup (platKey g) t.platform with
       | some p => p.includes
       | none => [])
    let flags := (activeFlags g t).map (expandVars env g)
    let cs := resolveCompiler g t.language
    let r := compileLoop env g cs.1 cs.2 (sourceExt t.language) flags includes sources
    ⟨r.1, r.2, setActiveFlags g t flags⟩

/-- Go `linkTarget`: objects, `-o` and the output executable path, `-L` per
platform library directory, `-l<name>` per platform link library, run through
the Command Runner with the same driver as compilation. -/
def linkTarget (env : Env) (g : Gs) (t : Target) (objects : List Str) : Tr Unit :=
  let output := env.join g.buildDir (exeName g g.projectName)
  let pargs :=
    match List.lookup (platKey g) t.platform with
    | some p => (p.libDirs.map (fun d => ["-L".toList, d])).flatten ++
        p.links.map (fun l => "-l".toList ++ l)
    | none => []
  run env (resolveCompiler g t.language).1 (objects ++ ["-o".toList, output] ++ pargs)

/-- The copy half of one post-build step for one glob pattern: each matched
file that is missing or older at the destination is copied to the output
directory under its base name. -/
def copyMatches (env : Env) (g : Gs) (pat : Str) : List (Str × Str) :=
  (env.glob pat).filterMap fun f =>
    let dst := env.join g.buildDir (env.base f)
    if isNewer env f dst then some (f, dst) else none

/-- One step of Go `doPostBuild`: perform the copies, then select the platform
command template; a non-empty template is expanded and split on whitespace,
and `parts[0]` is executed — when the split is empty that access panics. -/
def postBuildStep (env : Env) (g : Gs) (pb : PostBuild) : Tr Unit :=
  let copies := (pb.copy.map (copyMatches env g)).flatten
  let cmdStr := if g.isWindows then pb.runWindows else pb.runLinux
  if cmdStr = [] then ⟨[], copies, .ok ()⟩
  else
    match fields (expandVars env g cmdStr) with
    | [] => ⟨[], copies, .error .panic⟩
    | p :: ps =>
      let r := run env p ps
      ⟨r.cmds, copies, r.res⟩

/-- Go `doPostBuild` over the configured step list. -/
def doPostBuild (env : Env) (g : Gs) : List PostBuild → Tr Unit
  | [] => ⟨[], [], .ok ()⟩
  | pb :: rest =>
    let r := postBuildStep env g pb
    match r.res with
    | .error e => ⟨r.cmds, r.copies, .error e⟩
    | .ok _ =>
      let r2 := doPostBuild env g rest
      ⟨r.cmds ++ r2.cmds, r.copies ++ r2.copies, r2.res⟩

/-- The zero value of `Target`, produced by indexing `cfg.Targets` with a
missing key. -/
def zeroTarget : Target := ⟨[], [], [], [], [], [], ⟨[]⟩, ⟨[]⟩⟩

/-- The main-target search loop of `doBuild`: iterate the target map and keep
the last name whose kind is executable. -/
def findMainName (ts : List (Str × Target)) : Option Str :=
  ts.foldl (fun acc nt => if nt.2.kind = "executable".toList then some nt.1 else acc) none

/-- Go map indexing `cfg.Targets[name]`, yielding the zero Target when the
name is absent. -/
def getTarget (g : Gs) (name : Str) : Target :=
  (List.lookup name g.targets).getD zeroTarget

/-- The dependency loop of `doBuild`: build each dependency target in list
order, recording its artifacts in the `built` map (modelled as a function
updated per write, mirroring Go map assignment). -/
def buildDepsLoop (env : Env) (g : Gs) :
    (Str → Option (List Str)) → List Str → List Cmd × Except BErr (Str → Option (List Str))
  | built, [] => ([], .ok built)
  | built, d :: rest =>
    let r := buildTarget env g (getTarget g d)
    match r.res with
    | .error e => (r.cmds, .error e)
    | .ok objs =>
      let r2 := buildDepsLoop env g (fun k => if k = d then some objs else built k) rest
      (r.cmds ++ r2.1, r2.2)

/-- The build-and-link portion of `doBuild` (lines preceding the post-build
call): dependencies in list order, then the executable target, then the link
over the aggregated artifact list read back from the `built` map. -/
def buildPhase (env : Env) (g : Gs) (mainName : Str) : List Cmd × Except BErr Unit :=
  let t := getTarget g mainName
  let rd := buildDepsLoop env g (fun _ => none) t.deps
  match rd.2 with
  | .error e => (rd.1, .error e)
  | .ok built =>
    let rm := buildTarget env g t
    match rm.res with
    | .error e => (rd.1 ++ rm.cmds, .error e)
    | .ok mobjs =>
      let built2 := fun k => if k = mainName then some mobjs else built k
      let allObjects := (t.deps.map (fun d => (built2 d).getD [])).flatten ++
        (built2 mainName).getD []
      let rl := linkTarget env g t allObjects
      (rd.1 ++ rm.cmds ++ rl.cmds, rl.res)

/-- Go `doBuild`: locate the executable target (directory creation is
best-effort and unmodelled); if none exists fall through to the post-build
pipeline; otherwise run the build phase and, on survival, the post-build
pipeline. -/
def doBuild (env : Env) (g : Gs) : Tr Unit :=
  match findMainName g.targets with
  | none => doPostBuild env g g.postBuild
  | some mainName =>
    let ph := buildPhase env g mainName
    match ph.2 with
    | .error e => ⟨ph.1, [], .error e⟩
    | .ok _ =>
      let rp := doPostBuild env g g.postBuild
      ⟨ph.1 ++ rp.cmds, rp.copies, rp.res⟩

/-- The object list a dependency name contributes, as recomputed from its
(deterministic) build. -/
def objsOf (env : Env) (g : Gs) (d : Str) : List Str :=
  match (buildTarget env g (getTarget g d)).res with
  | .ok objs => objs
  | .error _ => []

/-- The step prefix recognized by custom commands. -/
def execPfx : Str := "exec:".toList

/-- The step loop of Go `doCommand`.  An `exec:` step expands the path,
launches it, and — unlike every use of the Command Runner — discards the
outcome of `cmd.Run()`, so the loop continues regardless of the exit code. -/
def commandSteps (env : Env) (g : Gs) : List Str → Tr Unit
  | [] => ⟨[], [], .ok ()⟩
  | step :: rest =>
    let r : Tr Unit :=
      if step = "build".toList then doBuild env g
      else if step = "post_build".toList then doPostBuild env g g.postBuild
      else if execPfx.isPrefixOf step then
        let p := expandVars env g (step.drop execPfx.length)
        let absPath := env.abs p
        let _ := env.exit absPath []
        ⟨[⟨absPath, []⟩], [], .ok ()⟩
      else ⟨[], [], .ok ()⟩
    match r.res with
    | .error e => ⟨r.cmds, r.copies, .error e⟩
    | .ok _ =>
      let r2 := commandSteps env g rest
      ⟨r.cmds ++ r2.cmds, r.copies ++ r2.copies, r2.res⟩

/-- Go `doCommand`. -/
def doCommand (env : Env) (g : Gs) (c : Command) : Tr Unit :=
  commandSteps env g c.steps

/-- A dependency target used by the concrete build fixture. -/
def libTarget : Target where
  kind := "object".toList
  language := "c99".toList
  sources := ["lib.c".toList]
  includes := ["ilib".toList]
  deps := []
  platform := []
  debug := ⟨["-g".toList]⟩
  release := ⟨[]⟩

/-- The executable target of the concrete build fixture. -/
def appTarget : Target where
  kind := "executable".toList
  language := "c99".toList
  sources := ["a.c".toList]
  includes := ["iapp".toList]
  deps := ["lib".toList]
  platform := [("linux".toList, ⟨["ip".toList], ["ld".toList], ["m".toList], "bin".toList⟩)]
  debug := ⟨["-O0".toList]⟩
  release := ⟨[]⟩

/-- Globals of the concrete build fixture. -/
def gMain : Gs where
  isWindows := false
  mode := "debug".toList
  buildDir := "bin".toList
  cacheDir := "cache".toList
  projectName := "game".toList
  compilerSel := []
  vars := []
  targets := [("lib".toList, libTarget), ("app".toList, appTarget)]
  postBuild := [⟨[], [], "tool x".toList, []⟩]

/-- The fixture globals with no executable target. -/
def gNoExe : Gs := { gMain with targets := [("lib".toList, libTarget)] }

/-- Environment of the concrete build fixture: every glob pattern matches
itself, nothing is on disk (so everything is stale), and every launched
process succeeds. -/
def envMain : Env where
  cwd := "/r".toList
  glob := fun p => [p]
  stat := fun _ => none
  read := fun _ => none
  exit := fun _ _ => 0
  join := fun a b => a ++ '/' :: b
  base := fun s => s
  abs := fun s => s

/-- The fixture environment with every process launch failing. -/
def envFail : Env := { envMain with exit := fun _ _ => 1 }

/-- A target whose debug flag list is the literal output token, for the C3
counterexample. -/
def tC3 : Target where
  kind := "object".toList
  language := "c99".toList
  sources := ["m.c".toList]
  includes := []
  deps := []
  platform := []
  debug := ⟨[varToken nmOutput]⟩
  release := ⟨["-O2".toList]⟩

/-- A custom command consisting of one failing exec step, for the C6
counterexample. -/
def cmdC6 : Command := ⟨[], ["exec:tool".toList], []⟩

/-- A post-build step whose selected command template is a single space, for
C10. -/
def pbWS : PostBuild := ⟨[], [], " ".toList, []⟩

/-- A dependency file content with a backslash-newline continuation, for the
C7 witness. -/
def depContent : Str := "out.o: a.h \\\n b.h".toList

/-- The fixture environment extended with a readable dependency file. -/
def envDep : Env :=
  { envMain with read := fun p => if p = "x.d".toList then some depContent else none }

/-- Globals with one user variable whose value contains the output token, for
the C4 amended-claim witness. -/
def gC4w : Gs :=
  { gC4 with
    buildDir := "bin".toList
    vars := [("assets".toList, varToken nmOutput ++ "/a".toList)] }

-- THEOREMS

/-- Fuel irrelevance for `replaceAllF`: any fuel at least the input length
computes the same result. -/
theorem replaceAllF_congr (pat rep : Str) :
    ∀ (f₁ f₂ : Nat) (s : Str), s.length ≤ f₁ → s.length ≤ f₂ →
      replaceAllF pat rep f₁ s = replaceAllF pat rep f₂ s := by
  intro f₁
  induction f₁ with
  | zero =>
    intro f₂ s h₁ _
    have hs : s = [] := List.eq_nil_of_length_eq_zero (Nat.le_zero.mp h₁)
    subst hs
    cases f₂ <;> rfl
  | succ n ih =>
    intro f₂ s h₁ h₂
    cases s with
    | nil => cases f₂ <;> rfl
    | cons c s' =>
      cases f₂ with
      | zero => simp at h₂
      | succ m =>
        show replaceAllF pat rep (n + 1) (c :: s') = replaceAllF pat rep (m + 1) (c :: s')
        by_cases hcond : pat.isPrefixOf (c :: s') ∧ pat ≠ []
        · simp only [replaceAllF, if_pos hcond]
          congr 1
          have hlen : pat.length ≥ 1 := by
            cases hp : pat with
            | nil => exact absurd hp hcond.2
            | cons a as => simp
          have hdl : ((c :: s').drop pat.length).length = (c :: s').length - pat.length :=
            List.length_drop _ _
          apply ih
          · simp only [hdl, List.length_cons]
            simp only [List.length_cons] at h₁
            omega
          · simp only [hdl, List.length_cons]
            simp only [List.length_cons] at h₂
            omega
        · simp only [replaceAllF, if_neg hcond]
          congr 1
          apply ih
          · simpa using h₁
          · simpa using h₂

/-- Unfolding lemma: replacement on the empty string. -/
theorem replaceAll_nil (pat rep : Str) : replaceAll pat rep [] = [] := rfl

/-- Unfolding lemma: when the pattern matches at the front, it is replaced and
scanning resumes after the match. -/
theorem replaceAll_pos (pat rep s : Str) (hp : pat.isPrefixOf s = true) (hne : pat ≠ []) :
    replaceAll pat rep s = rep ++ replaceAll pat rep (s.drop pat.length) := by
  cases s with
  | nil =>
    exfalso
    cases hp' : pat with
    | nil => exact hne hp'
    | cons a as => rw [hp'] at hp; simp [List.isPrefixOf] at hp
  | cons c s' =>
    show replaceAllF pat rep (s'.length + 1) (c :: s') = _
    have hcond : pat.isPrefixOf (c :: s') ∧ pat ≠ [] := ⟨hp, hne⟩
    simp only [replaceAllF, if_pos hcond]
    congr 1
    have hlen : pat.length ≥ 1 := by
      cases hq : pat with
      | nil => exact absurd hq hne
      | cons a as => simp
    have hdl : ((c :: s').drop pat.length).length = (c :: s').length - pat.length :=
      List.length_drop _ _
    apply replaceAllF_congr
    · simp only [hdl, List.length_cons]
      omega
    · exact Nat.le_refl _

/-- Unfolding lemma: when the pattern does not match at the front, the head
character is kept and scanning continues. -/
theorem replaceAll_neg (pat rep : Str) (c : Char) (s' : Str)
    (hp : pat.isPrefixOf (c :: s') = false) :
    replaceAll pat rep (c :: s') = c :: replaceAll pat rep s' := by
  show replaceAllF pat rep (s'.length + 1) (c :: s') = _
  have hcond : ¬ (pat.isPrefixOf (c :: s') ∧ pat ≠ []) := by
    intro h
    rw [hp] at h
    exact Bool.false_ne_true h.1
  simp only [replaceAllF, if_neg hcond]
  rfl

/-- Locating the text after the first colon in a string whose colon position is
given explicitly. -/
theorem afterColon_append (pre post : Str) (hpre : ':' ∉ pre) :
    afterColon (pre ++ ':' :: post) = some post := by
  induction pre with
  | nil => simp [afterColon]
  | cons c cs ih =>
    have hc : c ≠ ':' := fun h => hpre (h ▸ List.mem_cons_self c cs)
    have hcs : ':' ∉ cs := fun h => hpre (List.mem_cons_of_mem c h)
    simp [afterColon, hc, ih hcs]

/-- C1: `needsRecompile` returns true exactly when the object cannot be
stat'd, the source cannot be stat'd, the source is strictly newer than the
object, or some dependency listed in the dependency file exists and is
strictly newer than the object; in every other case (including an absent
dependency file, whose parse is empty) it returns false. -/
theorem needsRecompile_spec (env : Env) (src obj dep : Str) :
    needsRecompile env src obj dep = true ↔
      env.stat obj = none ∨ env.stat src = none ∨
      (∃ objTime srcTime, env.stat obj = some objTime ∧ env.stat src = some srcTime ∧
        objTime < srcTime) ∨
      (∃ objTime, env.stat obj = some objTime ∧
        ∃ h, h ∈ parseDeps env dep ∧ ∃ hTime, env.stat h = some hTime ∧ objTime < hTime) := by
  cases hobj : env.stat obj with
  | none => simp [needsRecompile, hobj]
  | some objTime =>
    cases hsrc : env.stat src with
    | none => simp [needsRecompile, hobj, hsrc]
    | some srcTime =>
      by_cases hlt : objTime < srcTime
      · simp only [needsRecompile, hobj, hsrc, if_pos hlt, true_iff]
        exact Or.inr (Or.inr (Or.inl ⟨objTime, srcTime, rfl, rfl, hlt⟩))
      · simp only [needsRecompile, hobj, hsrc, if_neg hlt, List.any_eq_true,
          reduceCtorEq, Option.some.injEq, false_or]
        constructor
        · rintro ⟨h, hmem, hh⟩
          cases hstat : env.stat h with
          | none => rw [hstat] at hh; exact absurd hh (by simp)
          | some hTime =>
            rw [hstat] at hh
            exact Or.inr ⟨objTime, rfl, h, hmem, hTime, hstat, of_decide_eq_true hh⟩
        · rintro (⟨o, t, ho, ht, hlt'⟩ | ⟨o, ho, hd, hmem, hTime, hstat, hlt'⟩)
          · subst ho; subst ht
            exact absurd hlt' hlt
          · subst ho
            exact ⟨hd, hmem, by rw [hstat]; exact decide_eq_true hlt'⟩

/-- C7: `parseDeps` yields the empty list for an unreadable dependency file,
and otherwise collapses line continuations, discards everything up to and
including the first colon, and returns the whitespace-separated tokens of the
remainder in order. -/
theorem parseDeps_characterization (env : Env) (depFile : Str) :
    (env.read depFile = none → parseDeps env depFile = []) ∧
    (∀ data pre post, env.read depFile = some data →
      collapseContinuations data = pre ++ ':' :: post → ':' ∉ pre →
      parseDeps env depFile = fields post) := by
  constructor
  · intro h
    simp [parseDeps, h]
  · intro data pre post hread hsplit hpre
    simp only [parseDeps, hread]
    rw [hsplit]
    unfold stripTargetPart
    rw [afterColon_append pre post hpre]
    rfl

/-- Cancellation around a distinguished character: if `c` occurs in neither of
the left parts, the decompositions agree. -/
theorem append_cons_inj {c : Char} : ∀ {xs ys x y : Str}, c ∉ xs → c ∉ ys →
    xs ++ c :: x = ys ++ c :: y → xs = ys ∧ x = y := by
  intro xs
  induction xs with
  | nil =>
    intro ys x y _ hys h
    cases ys with
    | nil => simpa using h
    | cons b bs =>
      exfalso
      simp only [List.nil_append, List.cons_append, List.cons.injEq] at h
      exact hys (by rw [h.1]; exact List.mem_cons_self b bs)
  | cons a as ih =>
    intro ys x y hxs hys h
    cases ys with
    | nil =>
      exfalso
      simp only [List.cons_append, List.nil_append, List.cons.injEq] at h
      exact hxs (by rw [← h.1]; exact List.mem_cons_self a as)
    | cons b bs =>
      simp only [List.cons_append, List.cons.injEq] at h
      obtain ⟨hab, h2⟩ := h
      subst hab
      have has : c ∉ as := fun hm => hxs (List.mem_cons_of_mem _ hm)
      have hbs : c ∉ bs := fun hm => hys (List.mem_cons_of_mem _ hm)
      obtain ⟨h3, h4⟩ := ih has hbs h2
      exact ⟨by rw [h3], h4⟩

/-- An infix of a list is an infix of the list with anything prepended. -/
theorem infix_of_infix_append {l b : Str} (a : Str) (h : l <:+: b) : l <:+: a ++ b := by
  obtain ⟨pre, suf, h⟩ := h
  exact ⟨a ++ pre, suf, by rw [← h]; simp [List.append_assoc]⟩

/-- An infix of a list is an infix of the list with a character prepended. -/
theorem infix_of_infix_cons {l b : Str} {a : Char} (h : l <:+: b) : l <:+: a :: b :=
  infix_of_infix_append [a] h

/-- A suffix of a list is a suffix of the list with a character prepended. -/
theorem suffix_of_suffix_cons {l b : Str} {a : Char} (h : l <:+ b) : l <:+ a :: b := by
  obtain ⟨u, h⟩ := h
  exact ⟨a :: u, by rw [← h]; rfl⟩

/-- Splitting a prefix of a concatenation. -/
theorem prefix_append_cases : ∀ {a t b : Str}, t <+: a ++ b →
    t <+: a ∨ ∃ t₂, t = a ++ t₂ ∧ t₂ <+: b := by
  intro a
  induction a with
  | nil => intro t b h; exact Or.inr ⟨t, rfl, by simpa using h⟩
  | cons x a' ih =>
    intro t b h
    cases t with
    | nil => exact Or.inl (List.nil_prefix)
    | cons y t' =>
      rw [List.cons_append, List.cons_prefix_cons] at h
      obtain ⟨hyx, h2⟩ := h
      subst hyx
      rcases ih h2 with h3 | ⟨t₂, ht, h4⟩
      · exact Or.inl (List.cons_prefix_cons.mpr ⟨rfl, h3⟩)
      · exact Or.inr ⟨t₂, by rw [ht, List.cons_append], h4⟩

/-- Splitting an infix of a concatenation: it lies in the left part, in the
right part, or spans the border as a non-trivial suffix of the left part glued
to a non-trivial prefix of the right part. -/
theorem infix_append_cases : ∀ {a t b : Str}, t <:+: a ++ b →
    t <:+: a ∨ t <:+: b ∨
      ∃ t₁ t₂, t = t₁ ++ t₂ ∧ t₁ ≠ [] ∧ t₂ ≠ [] ∧ t₁ <:+ a ∧ t₂ <+: b := by
  intro a
  induction a with
  | nil => intro t b h; exact Or.inr (Or.inl (by simpa using h))
  | cons x a' ih =>
    intro t b h
    rw [List.cons_append, List.infix_cons_iff] at h
    rcases h with h | h
    · have h' : t <+: (x :: a') ++ b := by rwa [List.cons_append]
      rcases prefix_append_cases h' with hkey | ⟨t₂, ht, h4⟩
      · exact Or.inl hkey.isInfix
      · cases t₂ with
        | nil =>
          rw [List.append_nil] at ht
          exact Or.inl (ht ▸ List.infix_rfl)
        | cons z t₂' =>
          exact Or.inr (Or.inr ⟨x :: a', z :: t₂', ht, by simp, by simp,
            List.suffix_rfl, h4⟩)
    · rcases ih h with h1 | h2 | ⟨t₁, t₂, ht, hn1, hn2, hs, hp⟩
      · exact Or.inl (infix_of_infix_cons h1)
      · exact Or.inr (Or.inl h2)
      · exact Or.inr (Or.inr ⟨t₁, t₂, ht, hn1, hn2, suffix_of_suffix_cons hs, hp⟩)

/-- A brace-delimited token is never a proper infix of another brace-delimited
token with a brace-free name: the only way one token occurs inside another is
name equality. -/
theorem token_infix_token {name w : Str} (hn : bracesFree name) (hw : bracesFree w)
    (h : varToken w <:+: varToken name) : w = name := by
  obtain ⟨pre, suf, h⟩ := h
  cases pre with
  | nil =>
    simp only [List.nil_append] at h
    have h' : lbrace :: ((w ++ [rbrace]) ++ suf) = lbrace :: (name ++ [rbrace]) := h
    injection h' with _ h2
    rw [List.append_assoc] at h2
    have h3 : w ++ rbrace :: suf = name ++ rbrace :: ([] : Str) := by simpa using h2
    exact (append_cons_inj hw.2 hn.2 h3).1
  | cons p pre' =>
    exfalso
    have h' : p :: ((pre' ++ varToken w) ++ suf) = lbrace :: (name ++ [rbrace]) := h
    injection h' with h1 h2
    have hmem : lbrace ∈ name ++ [rbrace] := by
      rw [← h2]
      have hv : lbrace ∈ varToken w := List.mem_cons_self _ _
      exact List.mem_append.mpr (Or.inl (List.mem_append.mpr (Or.inr hv)))
    rcases List.mem_append.mp hmem with hm | hm
    · exact hn.1 hm
    · simp only [List.mem_singleton] at hm
      exact absurd hm (by decide)

/-- When the pattern occurs in the input, the replacement text occurs in the
output of `replaceAll`: the first occurrence really is rewritten. -/
theorem rep_infix_replaceAllN (pat rep : Str) (hne : pat ≠ []) :
    ∀ (n : Nat) (s : Str), s.length ≤ n → pat <:+: s → rep <:+: replaceAll pat rep s := by
  intro n
  induction n with
  | zero =>
    intro s hlen hinf
    have hs : s = [] := List.eq_nil_of_length_eq_zero (Nat.le_zero.mp hlen)
    subst hs
    rw [List.infix_nil] at hinf
    exact absurd hinf hne
  | succ k ih =>
    intro s hlen hinf
    cases s with
    | nil =>
      rw [List.infix_nil] at hinf
      exact absurd hinf hne
    | cons c s' =>
      cases hp : pat.isPrefixOf (c :: s') with
      | true =>
        rw [replaceAll_pos _ _ _ hp hne]
        exact (List.prefix_append rep _).isInfix
      | false =>
        rw [replaceAll_neg _ _ _ _ hp]
        rcases List.infix_cons_iff.mp hinf with hpre | hinf'
        · exact absurd (List.isPrefixOf_iff_prefix.mpr hpre) (by rw [hp]; simp)
        · exact infix_of_infix_cons (ih s' (by simpa using hlen) hinf')

/-- Wrapper for `rep_infix_replaceAllN` at the natural fuel. -/
theorem rep_infix_replaceAll (pat rep : Str) (hne : pat ≠ []) (s : Str)
    (h : pat <:+: s) : rep <:+: replaceAll pat rep s :=
  rep_infix_replaceAllN pat rep hne s.length s (Nat.le_refl _) h

/-- Replacement of a brace-initial token walks over any brace-free front
segment untouched. -/
theorem replaceAll_skip_front (name rep : Str) :
    ∀ (u v : Str), (∀ ch ∈ u, ch ≠ lbrace) →
      replaceAll (varToken name) rep (u ++ v) = u ++ replaceAll (varToken name) rep v := by
  intro u
  induction u with
  | nil => intro v _; rfl
  | cons ch u' ih =>
    intro v hu
    have hch : ch ≠ lbrace := hu ch (List.mem_cons_self _ _)
    have hp : (varToken name).isPrefixOf (ch :: (u' ++ v)) = false := by
      simp only [varToken, List.isPrefixOf, Bool.and_eq_false_iff]
      left
      exact beq_eq_false_iff_ne.mpr (Ne.symm hch)
    rw [List.cons_append, replaceAll_neg _ _ _ _ hp,
      ih v (fun x hx => hu x (List.mem_cons_of_mem _ hx))]
    rfl

/-- Core preservation lemma: an occurrence of an unrecognized brace-free token
survives one `replaceAll` pass for a different brace-free token name. -/
theorem token_preserved_replaceAllN {name w : Str} (rep : Str)
    (hn : bracesFree name) (hw : bracesFree w) (hne : w ≠ name) :
    ∀ (n : Nat) (s : Str), s.length ≤ n → varToken w <:+: s →
      varToken w <:+: replaceAll (varToken name) rep s := by
  intro n
  induction n with
  | zero =>
    intro s hlen hinf
    have hs : s = [] := List.eq_nil_of_length_eq_zero (Nat.le_zero.mp hlen)
    subst hs
    rw [List.infix_nil] at hinf
    exact absurd hinf (by simp [varToken])
  | succ k ih =>
    intro s hlen hinf
    cases s with
    | nil =>
      rw [List.infix_nil] at hinf
      exact absurd hinf (by simp [varToken])
    | cons c s' =>
      cases hp : (varToken name).isPrefixOf (c :: s') with
      | true =>
        have hpre : varToken name <+: c :: s' := List.isPrefixOf_iff_prefix.mp hp
        obtain ⟨rest, hrest⟩ := hpre
        have hdrop : (c :: s').drop (varToken name).length = rest := by
          rw [← hrest]
          exact List.drop_left _ _
        rw [replaceAll_pos _ _ _ hp (by simp [varToken]), hdrop]
        rw [← hrest] at hinf
        rcases infix_append_cases hinf with h1 | h2 | ⟨t₁, t₂, ht, hn1, hn2, hs1, hp2⟩
        · exact absurd (token_infix_token hn hw h1) hne
        · have hlen' : rest.length ≤ k := by
            have hl := congrArg List.length hrest
            simp only [List.length_append, List.length_cons, varToken,
              List.length_append, List.length_cons, List.length_nil] at hl
            simp only [List.length_cons] at hlen
            omega
          exact infix_of_infix_append rep (ih rest hlen' h2)
        · exfalso
          rcases List.suffix_cons_iff.mp hs1 with heq | hsuf
          · rw [heq] at ht
            have h' : lbrace :: (w ++ rbrace :: ([] : Str)) =
                lbrace :: (name ++ rbrace :: t₂) := by
              simpa [varToken, List.append_assoc] using ht
            injection h' with _ h2
            exact hne (append_cons_inj hw.2 hn.2 h2).1
          · have hlb : lbrace ∈ t₁ := by
              cases t₁ with
              | nil => exact absurd rfl hn1
              | cons a t₁' =>
                have h' : lbrace :: (w ++ [rbrace]) = a :: (t₁' ++ t₂) := by
                  simpa [varToken] using ht
                injection h' with h1 _
                rw [← h1]
                exact List.mem_cons_self _ _
            obtain ⟨u, hu⟩ := hsuf
            have hmem : lbrace ∈ name ++ [rbrace] := by
              rw [← hu]
              exact List.mem_append.mpr (Or.inr hlb)
            rcases List.mem_append.mp hmem with hm | hm
            · exact hn.1 hm
            · simp only [List.mem_singleton] at hm
              exact absurd hm (by decide)
      | false =>
        rw [replaceAll_neg _ _ _ _ hp]
        rcases List.infix_cons_iff.mp hinf with hpre | hinf'
        · obtain ⟨rest, hrest⟩ := hpre
          have h' : lbrace :: ((w ++ [rbrace]) ++ rest) = c :: s' := hrest
          injection h' with h1 h2
          rw [← h2, ← h1]
          rw [replaceAll_skip_front name rep (w ++ [rbrace]) rest ?hchars]
          case hchars =>
            intro x hx
            rcases List.mem_append.mp hx with hm | hm
            · exact fun he => hw.1 (he ▸ hm)
            · simp only [List.mem_singleton] at hm
              subst hm
              decide
          have hpref : varToken w <+:
              lbrace :: ((w ++ [rbrace]) ++ replaceAll (varToken name) rep rest) :=
            ⟨replaceAll (varToken name) rep rest, rfl⟩
          exact hpref.isInfix
        · exact infix_of_infix_cons (ih s' (by simpa using hlen) hinf')

/-- Preservation of an unrecognized token across the user-variable fold of
`expandVars`. -/
theorem token_preserved_foldl {w : Str} (hw : bracesFree w) :
    ∀ (vs : List (Str × Str)) (s : Str),
      (∀ kv ∈ vs, bracesFree kv.1) → (∀ kv ∈ vs, w ≠ kv.1) →
      varToken w <:+: s →
      varToken w <:+: vs.foldl (fun acc kv => replaceAll (varToken kv.1) kv.2 acc) s := by
  intro vs
  induction vs with
  | nil => intro s _ _ h; simpa using h
  | cons kv rest ih =>
    intro s hbk hnk h
    simp only [List.foldl_cons]
    apply ih _ (fun x hx => hbk x (List.mem_cons_of_mem _ hx))
      (fun x hx => hnk x (List.mem_cons_of_mem _ hx))
    exact token_preserved_replaceAllN kv.2 (hbk kv (List.mem_cons_self _ _)) hw
      (hnk kv (List.mem_cons_self _ _)) s.length s (Nat.le_refl _) h

/-- C4 counterexample: with the configured output directory equal to the
literal exe token, expanding the output token yields the executable name — the
value substituted for the output token was re-scanned by the subsequent exe
pass, and does not remain verbatim in the result. -/
theorem expandVars_rescans_counterexample :
    gC4.buildDir = varToken nmExe ∧
    expandVars emptyEnv gC4 (varToken nmOutput) = "game".toList ∧
    ¬ varToken nmExe <:+: expandVars emptyEnv gC4 (varToken nmOutput) := by
  decide

/-- C4 amended: expansion is a fixed sequence of single-pass replacements
(project root, output, exe, then each user variable); a pass's replacement
value can be re-scanned by later passes, but the value substituted in the
final pass is not re-scanned.  In particular, with a single user variable
whose value contains the output token, whenever the variable's token occurs in
the text produced by the three built-in passes, the output token text from the
variable's value appears verbatim in the result. -/
theorem expandVars_user_value_kept (env : Env) (g : Gs) (k v s : Str)
    (hvars : g.vars = [(k, v)])
    (hocc : varToken k <:+:
      replaceAll (varToken nmExe) (exeName g g.projectName)
        (replaceAll (varToken nmOutput) g.buildDir
          (replaceAll (varToken nmProjectRoot) env.cwd s)))
    (hout : varToken nmOutput <:+: v) :
    varToken nmOutput <:+: expandVars env g s := by
  unfold expandVars
  rw [hvars]
  simp only [List.foldl_cons, List.foldl_nil]
  exact hout.trans (rep_infix_replaceAll (varToken k) v (by simp [varToken]) _ hocc)

/-- C5 counterexample: the two association lists represent the same variable
map (they are permutations of each other, and Go's map iteration order is
unspecified), all other configuration fields agree, yet expansion of the same
template yields different strings — `expandVars` is not deterministic in the
configuration alone. -/
theorem expandVars_order_counterexample :
    gC5a.vars.Perm gC5b.vars ∧
    gC5a.isWindows = gC5b.isWindows ∧ gC5a.mode = gC5b.mode ∧
    gC5a.buildDir = gC5b.buildDir ∧ gC5a.cacheDir = gC5b.cacheDir ∧
    gC5a.projectName = gC5b.projectName ∧ gC5a.compilerSel = gC5b.compilerSel ∧
    expandVars emptyEnv gC5a (varToken "a".toList) ≠
      expandVars emptyEnv gC5b (varToken "a".toList) := by
  refine ⟨?_, rfl, rfl, rfl, rfl, rfl, rfl, ?_⟩
  · exact List.Perm.swap _ _ _
  · decide

/-- C5 amended: expansion is a pure function of the configuration together
with the iteration order of the user-variable map, and an unrecognized token —
a brace-delimited brace-free name distinct from every recognized placeholder
name (the user-variable names being brace-free) — is left verbatim in the
output. -/
theorem expandVars_unrecognized_verbatim (env : Env) (g : Gs) (w s : Str)
    (hw : bracesFree w)
    (hkeys : ∀ kv ∈ g.vars, bracesFree kv.1)
    (h1 : w ≠ nmProjectRoot) (h2 : w ≠ nmOutput) (h3 : w ≠ nmExe)
    (h4 : ∀ kv ∈ g.vars, w ≠ kv.1)
    (hs : varToken w <:+: s) :
    varToken w <:+: expandVars env g s := by
  unfold expandVars
  apply token_preserved_foldl hw _ _ hkeys h4
  apply token_preserved_replaceAllN _ (by decide) hw h3 _ _ (Nat.le_refl _)
  apply token_preserved_replaceAllN _ (by decide) hw h2 _ _ (Nat.le_refl _)
  apply token_preserved_replaceAllN _ (by decide) hw h1 _ _ (Nat.le_refl _)
  exact hs

/-- Witness for C7 at a concrete dependency file with a backslash-newline
continuation. -/
theorem parseDeps_characterization_witness :
    (envDep.read ("x.d".toList) = some depContent ∧
     collapseContinuations depContent = "out.o".toList ++ ':' :: " a.h   b.h".toList ∧
     ':' ∉ "out.o".toList) ∧
    parseDeps envDep ("x.d".toList) = fields (" a.h   b.h".toList) ∧
    parseDeps envDep ("x.d".toList) = ["a.h".toList, "b.h".toList] := by
  refine ⟨⟨rfl, by decide, by decide⟩, ?_, by decide⟩
  exact (parseDeps_characterization envDep ("x.d".toList)).2 depContent
    ("out.o".toList) (" a.h   b.h".toList) rfl (by decide) (by decide)

/-- Witness for the amended C4 statement: a user variable whose value contains
the output token keeps that text verbatim in the expansion result. -/
theorem expandVars_user_value_kept_witness :
    (gC4w.vars = [("assets".toList, varToken nmOutput ++ "/a".toList)] ∧
     varToken ("assets".toList) <:+:
       replaceAll (varToken nmExe) (exeName gC4w gC4w.projectName)
         (replaceAll (varToken nmOutput) gC4w.buildDir
           (replaceAll (varToken nmProjectRoot) emptyEnv.cwd
             (varToken "assets".toList))) ∧
     varToken nmOutput <:+: (varToken nmOutput ++ "/a".toList)) ∧
    varToken nmOutput <:+: expandVars emptyEnv gC4w (varToken "assets".toList) := by
  refine ⟨⟨rfl, by decide, by decide⟩, ?_⟩
  exact expandVars_user_value_kept emptyEnv gC4w ("assets".toList)
    (varToken nmOutput ++ "/a".toList) (varToken "assets".toList) rfl
    (by decide) (by decide)

/-- Witness for the amended C5 statement: an unrecognized brace-free token is
left verbatim by expansion under the two-variable fixture configuration. -/
theorem expandVars_unrecognized_verbatim_witness :
    (bracesFree ("custom".toList) ∧ (∀ kv ∈ gC5a.vars, bracesFree kv.1) ∧
      (∀ kv ∈ gC5a.vars, "custom".toList ≠ kv.1) ∧
      varToken ("custom".toList) <:+:
        (varToken ("custom".toList) ++ " x ".toList ++ varToken ("a".toList))) ∧
    varToken ("custom".toList) <:+:
      expandVars emptyEnv gC5a
        (varToken ("custom".toList) ++ " x ".toList ++ varToken ("a".toList)) := by
  refine ⟨⟨by decide, by decide, by decide, by decide⟩, ?_⟩
  exact expandVars_unrecognized_verbatim emptyEnv gC5a ("custom".toList) _
    (by decide) (by decide) (by decide) (by decide) (by decide) (by decide) (by decide)

/-- C3 counterexample: building a target whose debug flag list is the literal
output token leaves the configuration's flag list overwritten with the
expanded value — the flag lists read back after a build are the expanded
forms, not the lists as loaded. -/
theorem buildTarget_mutates_flags_counterexample :
    tC3.debug.flags = [varToken nmOutput] ∧
    (buildTarget envMain gMain tC3).tAfter.debug.flags = ["bin".toList] ∧
    (buildTarget envMain gMain tC3).tAfter.debug.flags ≠ tC3.debug.flags := by
  refine ⟨rfl, ?_, ?_⟩ <;> decide

/-- C3 amended: when at least one source resolves, `buildTarget` overwrites
the active mode's flag list in place with its variable-expanded form (the
`flags[i] = expandVars(f)` loop writes through the slice shared with the
loaded configuration); every other configuration field — and the inactive
mode's flag list — is left unchanged, and a target with no resolved sources is
left entirely unchanged (the function returns before the flag loop). -/
theorem buildTarget_config_effect (env : Env) (g : Gs) (t : Target) :
    ((t.sources.map env.glob).flatten = [] → (buildTarget env g t).tAfter = t) ∧
    ((t.sources.map env.glob).flatten ≠ [] →
      (buildTarget env g t).tAfter =
        setActiveFlags g t ((activeFlags g t).map (expandVars env g))) ∧
    (buildTarget env g t).tAfter.kind = t.kind ∧
    (buildTarget env g t).tAfter.language = t.language ∧
    (buildTarget env g t).tAfter.sources = t.sources ∧
    (buildTarget env g t).tAfter.includes = t.includes ∧
    (buildTarget env g t).tAfter.deps = t.deps ∧
    (buildTarget env g t).tAfter.platform = t.platform ∧
    (g.mode = "release".toList → (buildTarget env g t).tAfter.debug = t.debug) ∧
    (g.mode ≠ "release".toList → (buildTarget env g t).tAfter.release = t.release) := by
  have key : (buildTarget env g t).tAfter =
      if (t.sources.map env.glob).flatten = [] then t
      else setActiveFlags g t ((activeFlags g t).map (expandVars env g)) := by
    by_cases hs : (t.sources.map env.glob).flatten = [] <;> simp [buildTarget, hs]
  have hset : ∀ fl : List Str, (setActiveFlags g t fl).kind = t.kind ∧
      (setActiveFlags g t fl).language = t.language ∧
      (setActiveFlags g t fl).sources = t.sources ∧
      (setActiveFlags g t fl).includes = t.includes ∧
      (setActiveFlags g t fl).deps = t.deps ∧
      (setActiveFlags g t fl).platform = t.platform ∧
      (g.mode = "release".toList → (setActiveFlags g t fl).debug = t.debug) ∧
      (g.mode ≠ "release".toList → (setActiveFlags g t fl).release = t.release) := by
    intro fl
    unfold setActiveFlags
    by_cases hm : g.mode = "release".toList
    · rw [if_pos hm]
      exact ⟨rfl, rfl, rfl, rfl, rfl, rfl, fun _ => rfl, fun hc => absurd hm hc⟩
    · rw [if_neg hm]
      exact ⟨rfl, rfl, rfl, rfl, rfl, rfl, fun hc => absurd hc hm, fun _ => rfl⟩
  rw [key]
  by_cases hs : (t.sources.map env.glob).flatten = []
  · rw [if_pos hs]
    exact ⟨fun _ => rfl, fun hc => absurd hs hc, rfl, rfl, rfl, rfl, rfl, rfl,
      fun _ => rfl, fun _ => rfl⟩
  · rw [if_neg hs]
    obtain ⟨h1, h2, h3, h4, h5, h6, h7, h8⟩ :=
      hset ((activeFlags g t).map (expandVars env g))
    exact ⟨fun hc => absurd hc hs, fun _ => rfl, h1, h2, h3, h4, h5, h6, h7, h8⟩

/-- Witness for the amended C3 statement at the concrete fixture. -/
theorem buildTarget_config_effect_witness :
    ((tC3.sources.map envMain.glob).flatten ≠ [] ∧
      (buildTarget envMain gMain tC3).tAfter =
        setActiveFlags gMain tC3 ((activeFlags gMain tC3).map (expandVars envMain gMain))) ∧
    (gMain.mode ≠ "release".toList ∧
      (buildTarget envMain gMain tC3).tAfter.release = tC3.release) := by
  refine ⟨⟨by decide, (buildTarget_config_effect envMain gMain tC3).2.1 (by decide)⟩,
    ⟨by decide, (buildTarget_config_effect envMain gMain tC3).2.2.2.2.2.2.2.2.2 (by decide)⟩⟩

/-- Helper for C6: a custom command whose steps are all exec steps completes
successfully no matter what the launched processes return. -/
theorem commandSteps_exec_ok (env : Env) (g : Gs) :
    ∀ steps : List Str, (∀ step ∈ steps, execPfx.isPrefixOf step = true) →
      (commandSteps env g steps).res = .ok () := by
  intro steps
  induction steps with
  | nil => intro _; rfl
  | cons step rest ih =>
    intro h
    have hstep : execPfx.isPrefixOf step = true := h step (List.mem_cons_self _ _)
    have hb : step ≠ "build".toList := by
      intro he; rw [he] at hstep; exact absurd hstep (by decide)
    have hpb : step ≠ "post_build".toList := by
      intro he; rw [he] at hstep; exact absurd hstep (by decide)
    simp only [commandSteps, if_neg hb, if_neg hpb, hstep, if_true]
    exact ih (fun st hst => h st (List.mem_cons_of_mem _ hst))

/-- C6 counterexample: a custom command consisting of one `exec:` step whose
process exits non-zero does not abort — `doCommand` completes with success
after launching the process — although the Command Runner (used for compiler,
linker and post-build hooks) turns the same exit code into a fatal
`os.Exit(1)`. -/
theorem execStep_failure_ignored_counterexample :
    envFail.exit ("tool".toList) [] ≠ 0 ∧
    (doCommand envFail gMain cmdC6).res = .ok () ∧
    (doCommand envFail gMain cmdC6).cmds = [⟨"tool".toList, []⟩] ∧
    (run envFail "cc".toList []).res = .error (.exit 1) := by
  refine ⟨by decide, by decide, by decide, by decide⟩

/-- C6 amended: a failing (or unlaunchable) `exec:` step is not fatal — its
outcome is discarded and the command continues, completing successfully when
all steps are exec steps — whereas any command routed through the Command
Runner (compiler, linker, post-build hook) aborts the process on non-zero
exit. -/
theorem execSteps_not_fatal (env : Env) (g : Gs) (c : Command)
    (h : ∀ step ∈ c.steps, execPfx.isPrefixOf step = true) :
    (doCommand env g c).res = .ok () ∧
    ∀ nm args, env.exit nm args ≠ 0 → (run env nm args).res = .error (.exit 1) := by
  refine ⟨commandSteps_exec_ok env g c.steps h, ?_⟩
  intro nm args hne
  simp [run, hne]

/-- Witness for the amended C6 statement at the concrete fixture. -/
theorem execSteps_not_fatal_witness :
    (∀ step ∈ cmdC6.steps, execPfx.isPrefixOf step = true) ∧
    (doCommand envFail gMain cmdC6).res = .ok () ∧
    (run envFail "cc".toList []).res = .error (.exit 1) := by
  refine ⟨by decide, (execSteps_not_fatal envFail gMain cmdC6 (by decide)).1,
    (execSteps_not_fatal envFail gMain cmdC6 (by decide)).2 ("cc".toList) [] (by decide)⟩

/-- C10: a post-build step whose selected platform command template is
non-empty but expands to whitespace only panics on the `parts[0]` access —
the run terminates abnormally and no command reaches the Command Runner. -/
theorem postBuild_whitespace_panic (env : Env) (g : Gs) (pb : PostBuild)
    (rest : List PostBuild)
    (hne : (if g.isWindows then pb.runWindows else pb.runLinux) ≠ [])
    (hws : fields (expandVars env g
      (if g.isWindows then pb.runWindows else pb.runLinux)) = []) :
    (doPostBuild env g (pb :: rest)).res = .error .panic ∧
    (doPostBuild env g (pb :: rest)).cmds = [] := by
  have hstep : postBuildStep env g pb =
      ⟨[], (pb.copy.map (copyMatches env g)).flatten, .error .panic⟩ := by
    simp only [postBuildStep, if_neg hne, hws]
  constructor <;> simp [doPostBuild, hstep]

/-- Witness for C10 at the concrete fixture (a template of one space). -/
theorem postBuild_whitespace_panic_witness :
    ((if gMain.isWindows then pbWS.runWindows else pbWS.runLinux) ≠ [] ∧
     fields (expandVars envMain gMain
       (if gMain.isWindows then pbWS.runWindows else pbWS.runLinux)) = []) ∧
    (doPostBuild envMain gMain [pbWS]).res = .error .panic ∧
    (doPostBuild envMain gMain [pbWS]).cmds = [] := by
  exact ⟨⟨by decide, by decide⟩,
    postBuild_whitespace_panic envMain gMain pbWS [] (by decide) (by decide)⟩

/-- C8: with no executable target, `doBuild` is exactly the post-build
pipeline — no compilation, no link, no error from the missing target; with an
executable target whose build-and-link phase succeeds, the post-build
pipeline runs unconditionally after the link, its commands appended to the
phase's trace. -/
theorem doBuild_postbuild_policy (env : Env) (g : Gs) :
    (findMainName g.targets = none → doBuild env g = doPostBuild env g g.postBuild) ∧
    (∀ mainName, findMainName g.targets = some mainName →
      (buildPhase env g mainName).2 = .ok () →
      doBuild env g =
        ⟨(buildPhase env g mainName).1 ++ (doPostBuild env g g.postBuild).cmds,
         (doPostBuild env g g.postBuild).copies,
         (doPostBuild env g g.postBuild).res⟩) := by
  constructor
  · intro h
    simp [doBuild, h]
  · intro mainName h hok
    simp [doBuild, h, hok]

/-- Witness for C8 at the two concrete fixtures (without and with an
executable target). -/
theorem doBuild_postbuild_policy_witness :
    (findMainName gNoExe.targets = none ∧
      doBuild envMain gNoExe = doPostBuild envMain gNoExe gNoExe.postBuild) ∧
    (findMainName gMain.targets = some "app".toList ∧
      (buildPhase envMain gMain "app".toList).2 = .ok () ∧
      doBuild envMain gMain =
        ⟨(buildPhase envMain gMain "app".toList).1 ++
           (doPostBuild envMain gMain gMain.postBuild).cmds,
         (doPostBuild envMain gMain gMain.postBuild).copies,
         (doPostBuild envMain gMain gMain.postBuild).res⟩) := by
  refine ⟨⟨by decide, (doBuild_postbuild_policy envMain gNoExe).1 (by decide)⟩,
    ⟨by decide, by decide,
      (doBuild_postbuild_policy envMain gMain).2 ("app".toList) (by decide) (by decide)⟩⟩

/-- Helper for C9: the commands issued by the compile loop are exactly one
compiler invocation per stale source, in source order, with the assembled
argument list. -/
theorem compileLoop_cmds (env : Env) (g : Gs) (compiler stdFlag ext : Str)
    (flags includes : List Str) (hok : ∀ args, env.exit compiler args = 0) :
    ∀ sources : List Str,
      (compileLoop env g compiler stdFlag ext flags includes sources).1 =
        (sources.filter (fun src => needsRecompile env src (objPath env g ext src)
          (depPath (objPath env g ext src)))).map
          (fun src => ⟨compiler, compileArgs stdFlag flags includes src
            (objPath env g ext src) (depPath (objPath env g ext src))⟩) := by
  intro sources
  induction sources with
  | nil => rfl
  | cons src rest ih =>
    by_cases hst : needsRecompile env src (objPath env g ext src)
        (depPath (objPath env g ext src)) = true
    · simp [compileLoop, hst, hok, List.filter_cons, ih]
    · have hst' : needsRecompile env src (objPath env g ext src)
          (depPath (objPath env g ext src)) = false := by
        simpa using hst
      simp [compileLoop, hst', List.filter_cons, ih]

/-- C9: for every stale source the compiler is invoked with exactly the
arguments, in order: `-c`, the language-standard flag, `-w`, the
dependency-generation flags naming the dependency file, the expanded active
mode flags, one include flag (`-I` plus directory) per include directory —
target-level includes first, then the current platform overlay's includes,
order preserved and duplicates retained — then the source path, then `-o` and
the object path. -/
theorem buildTarget_compiler_invocations (env : Env) (g : Gs) (t : Target)
    (hok : ∀ args, env.exit (resolveCompiler g t.language).1 args = 0) :
    (buildTarget env g t).cmds =
      (((t.sources.map env.glob).flatten).filter (fun src =>
        needsRecompile env src (objPath env g (sourceExt t.language) src)
          (depPath (objPath env g (sourceExt t.language) src)))).map
        (fun src =>
          ⟨(resolveCompiler g t.language).1,
            ["-c".toList, (resolveCompiler g t.language).2, "-w".toList,
             "-MMD".toList, "-MF".toList,
             depPath (objPath env g (sourceExt t.language) src)] ++
            (activeFlags g t).map (expandVars env g) ++
            ((t.includes ++
              (match List.lookup (platKey g) t.platform with
               | some p => p.includes
               | none => [])).map (fun inc => ["-I".toList, inc])).flatten ++
            [src, "-o".toList, objPath env g (sourceExt t.language) src]⟩) := by
  by_cases hs : (t.sources.map env.glob).flatten = []
  · simp [buildTarget, hs]
  · simp only [buildTarget, if_neg hs]
    rw [compileLoop_cmds env g _ _ _ _ _ hok]
    rfl

/-- Witness for C9: the fixture's executable target produces exactly one
compiler invocation with the fully evaluated argument list. -/
theorem buildTarget_compiler_invocations_witness :
    (buildTarget envMain gMain appTarget).cmds =
      [⟨"gcc".toList,
        ["-c".toList, "-std=c99".toList, "-w".toList, "-MMD".toList, "-MF".toList,
         "cache/a.d".toList, "-O0".toList, "-I".toList, "iapp".toList,
         "-I".toList, "ip".toList, "a.c".toList, "-o".toList, "cache/a.o".toList]⟩] := by
  rw [buildTarget_compiler_invocations envMain gMain appTarget (fun args => rfl)]
  decide

/-- Helper for C2: the dependency loop, when every dependency target builds
successfully, issues each dependency's compile commands in dependency-list
order and records each dependency's artifacts in the built map. -/
theorem buildDepsLoop_ok (env : Env) (g : Gs) :
    ∀ (deps : List Str) (built : Str → Option (List Str)),
      (∀ d ∈ deps, ∃ objs, (buildTarget env g (getTarget g d)).res = .ok objs) →
      (buildDepsLoop env g built deps).1 =
        (deps.map (fun d => (buildTarget env g (getTarget g d)).cmds)).flatten ∧
      ∃ bf, (buildDepsLoop env g built deps).2 = .ok bf ∧
        ∀ k, bf k = if k ∈ deps then some (objsOf env g k) else built k := by
  intro deps
  induction deps with
  | nil =>
    intro built _
    exact ⟨rfl, built, rfl, fun k => by simp⟩
  | cons d rest ih =>
    intro built h
    obtain ⟨objs, hobjs⟩ := h d (List.mem_cons_self _ _)
    have hrest := ih (fun k => if k = d then some objs else built k)
      (fun x hx => h x (List.mem_cons_of_mem _ hx))
    simp only [buildDepsLoop, hobjs]
    constructor
    · rw [hrest.1]
      simp
    · obtain ⟨bf, hbf, hbfk⟩ := hrest.2
      refine ⟨bf, hbf, fun k => ?_⟩
      rw [hbfk k]
      by_cases hk1 : k ∈ rest
      · simp [hk1, List.mem_cons]
      · by_cases hk2 : k = d
        · subst hk2
          simp [hk1, objsOf, hobjs]
        · simp [hk1, hk2, List.mem_cons]

/-- C2: when the executable target and all its dependencies build
successfully, the trace of `doBuild` is each dependency's compiler invocations
in dependency-list order, then the executable's, then the link command, whose
argument list is all dependency object paths in dependency-list order,
followed by the executable's own object paths, `-o` and the output executable
path, one `-L` flag (plus directory) per platform-overlay library directory,
and one `-l`-prefixed flag per platform-overlay library name. -/
theorem doBuild_dependency_order_link (env : Env) (g : Gs) (mainName : Str)
    (hmain : findMainName g.targets = some mainName)
    (hdeps : ∀ d ∈ (getTarget g mainName).deps,
      ∃ objs, (buildTarget env g (getTarget g d)).res = .ok objs)
    (hmok : ∃ mobjs, (buildTarget env g (getTarget g mainName)).res = .ok mobjs) :
    ∃ tailCmds,
      (doBuild env g).cmds =
        ((getTarget g mainName).deps.map
            (fun d => (buildTarget env g (getTarget g d)).cmds)).flatten ++
          (buildTarget env g (getTarget g mainName)).cmds ++
          (⟨(resolveCompiler g (getTarget g mainName).language).1,
            ((getTarget g mainName).deps.map (objsOf env g)).flatten ++
              objsOf env g mainName ++
              ["-o".toList, env.join g.buildDir (exeName g g.projectName)] ++
              (match List.lookup (platKey g) (getTarget g mainName).platform with
               | some p => (p.libDirs.map (fun d => ["-L".toList, d])).flatten ++
                   p.links.map (fun l => "-l".toList ++ l)
               | none => [])⟩ : Cmd) :: tailCmds := by
  obtain ⟨mobjs, hmobjs⟩ := hmok
  obtain ⟨hcmds, bf, hbf, hbfk⟩ :=
    buildDepsLoop_ok env g (getTarget g mainName).deps (fun _ => none) hdeps
  have hmo : objsOf env g mainName = mobjs := by simp [objsOf, hmobjs]
  have hbuilt2 : ∀ d ∈ (getTarget g mainName).deps,
      (if d = mainName then some mobjs else bf d).getD [] = objsOf env g d := by
    intro d hd
    by_cases hdm : d = mainName
    · subst hdm
      simp [hmo]
    · rw [if_neg hdm, hbfk d, if_pos hd, Option.getD_some]
  have hmapeq : (getTarget g mainName).deps.map
      (fun d => (if d = mainName then some mobjs else bf d).getD []) =
      (getTarget g mainName).deps.map (objsOf env g) :=
    List.map_congr_left hbuilt2
  have hphase1 : (buildPhase env g mainName).1 =
      ((getTarget g mainName).deps.map
        (fun d => (buildTarget env g (getTarget g d)).cmds)).flatten ++
      (buildTarget env g (getTarget g mainName)).cmds ++
      [⟨(resolveCompiler g (getTarget g mainName).language).1,
        ((getTarget g mainName).deps.map (objsOf env g)).flatten ++
          objsOf env g mainName ++
          ["-o".toList, env.join g.buildDir (exeName g g.projectName)] ++
          (match List.lookup (platKey g) (getTarget g mainName).platform with
           | some p => (p.libDirs.map (fun d => ["-L".toList, d])).flatten ++
               p.links.map (fun l => "-l".toList ++ l)
           | none => [])⟩] := by
    simp only [buildPhase, hbf, hmobjs, hcmds, linkTarget, run]
    simp [hmapeq, hmo]
  cases hres : (buildPhase env g mainName).2 with
  | error e =>
    refine ⟨[], ?_⟩
    simp only [doBuild, hmain, hres]
    rw [hphase1]
    try simp [List.append_assoc]
  | ok u =>
    refine ⟨(doPostBuild env g g.postBuild).cmds, ?_⟩
    simp only [doBuild, hmain, hres]
    rw [hphase1]
    try simp [List.append_assoc]

/-- Witness for C2 at the concrete fixture: one dependency target, one
executable target; the full trace is the dependency compile, the executable
compile, the link with the specified argument order, then the post-build
hook. -/
theorem doBuild_dependency_order_link_witness :
    findMainName gMain.targets = some "app".toList ∧
    (∃ tailCmds,
      (doBuild envMain gMain).cmds =
        ((getTarget gMain ("app".toList)).deps.map
            (fun d => (buildTarget envMain gMain (getTarget gMain d)).cmds)).flatten ++
          (buildTarget envMain gMain (getTarget gMain ("app".toList))).cmds ++
          (⟨(resolveCompiler gMain (getTarget gMain ("app".toList)).language).1,
            ((getTarget gMain ("app".toList)).deps.map (objsOf envMain gMain)).flatten ++
              objsOf envMain gMain ("app".toList) ++
              ["-o".toList, envMain.join gMain.buildDir (exeName gMain gMain.projectName)] ++
              (match List.lookup (platKey gMain) (getTarget gMain ("app".toList)).platform with
               | some p => (p.libDirs.map (fun d => ["-L".toList, d])).flatten ++
                   p.links.map (fun l => "-l".toList ++ l)
               | none => [])⟩ : Cmd) :: tailCmds) ∧
    (doBuild envMain gMain).cmds =
      [⟨"gcc".toList,
        ["-c".toList, "-std=c99".toList, "-w".toList, "-MMD".toList, "-MF".toList,
         "cache/lib.d".toList, "-g".toList, "-I".toList, "ilib".toList,
         "lib.c".toList, "-o".toList, "cache/lib.o".toList]⟩,
       ⟨"gcc".toList,
        ["-c".toList, "-std=c99".toList, "-w".toList, "-MMD".toList, "-MF".toList,
         "cache/a.d".toList, "-O0".toList, "-I".toList, "iapp".toList,
         "-I".toList, "ip".toList, "a.c".toList, "-o".toList, "cache/a.o".toList]⟩,
       ⟨"gcc".toList,
        ["cache/lib.o".toList, "cache/a.o".toList, "-o".toList, "bin/game".toList,
         "-L".toList, "ld".toList, "-lm".toList]⟩,
       ⟨"tool".toList, ["x".toList]⟩] := by
  refine ⟨by decide, ?_, by decide⟩
  apply doBuild_dependency_order_link envMain gMain ("app".toList) (by decide) ?_
    ⟨["cache/a.o".toList], by decide⟩
  intro d hd
  have hdeq : d = "lib".toList := by
    have hds : (getTarget gMain ("app".toList)).deps = ["lib".toList] := by decide
    rw [hds] at hd
    simpa using hd
  subst hdeq
  exact ⟨["cache/lib.o".toList], by decide⟩

end Larva
